import Mathlib

set_option maxHeartbeats 1000000

/-!
Verification of `src/bin/convert-bigint-ids.py`.

The script has two parts:
* `convert_to_bigint` — a recursive walk over a decoded JSON value that
  replaces values of `"id"` / `"start"` / `"end"` keys by integers when the
  value passes `isinstance(value, (int, float)) or
  (isinstance(value, str) and re.match(r'^\d+$', value))`;
* `process_file` — a file driver that tries JSON-Lines first and falls back
  to parsing the whole file as one JSON document when a line fails to decode.

The embedding models Python/json semantics where the script relies on them:
dicts as insertion-ordered association lists, `bool` as an instance of `int`,
`re.match` `$` matching just before one trailing newline, `json.dumps` default
separators `", "` / `": "`, and the strict JSON grammar of `json.loads`.
Floats are modelled as exact rationals (the decoded decimal literal); no claim
below depends on IEEE rounding of literals or on the digits of a printed float.
-/

/-- JSON values as decoded by Python's `json` module: `None`, `bool`, `int`,
`float`, `str`, `list`, `dict` (dicts as insertion-ordered association lists;
floats as exact rationals). -/
inductive JValue where
  | null : JValue
  | bool (b : Bool) : JValue
  | int (n : Int) : JValue
  | float (q : Rat) : JValue
  | str (s : String) : JValue
  | arr (elems : List JValue) : JValue
  | obj (entries : List (String × JValue)) : JValue

/-- The key test of `convert_to_bigint`: `key in ("id", "start", "end")`. -/
def targetKey (k : String) : Bool :=
  k == "id" || k == "start" || k == "end"

/-- The characters `\d+` must cover for `re.match(r'^\d+$', s)` to succeed:
all of `s`, except that a single newline at the very end is dropped, because
`$` (without `re.MULTILINE`) also matches just before a trailing newline. -/
def matchCore (s : String) : List Char :=
  if s.data.getLast? == some '\n' then s.data.dropLast else s.data

/-- Python `re.match(r'^\d+$', s)`: one or more digits anchored at the start,
where `$` matches at the end of the string or just before a single newline at
the end of the string, so `"7\n"` matches. Digits are modelled as ASCII
digits (Python `\d` also accepts other Unicode decimal digits). -/
def reMatchDigitsEnd (s : String) : Bool :=
  !(matchCore s).isEmpty && (matchCore s).all Char.isDigit

/-- The value test of `convert_to_bigint`:
`isinstance(value, (int, float)) or (isinstance(value, str) and re.match(r'^\d+$', value))`.
Python `bool` is a subclass of `int`, so booleans pass the isinstance test. -/
def eligibleValue : JValue → Bool
  | .int _ => true
  | .float _ => true
  | .bool _ => true
  | .str s => reMatchDigitsEnd s
  | _ => false

/-- ASCII whitespace stripped by Python's `int(str)` conversion. -/
def isPyWs (c : Char) : Bool :=
  c == ' ' || c == '\t' || c == '\n' || c == '\r' ||
    c == Char.ofNat 11 || c == Char.ofNat 12

/-- Numeric value of a list of ASCII digits, most significant first. -/
def digitsToNat (ds : List Char) : Nat :=
  ds.foldl (fun a c => a * 10 + (c.toNat - 48)) 0

/-- One or more ASCII digits, or failure. -/
def parseDigits (ds : List Char) : Option Nat :=
  if !ds.isEmpty && ds.all Char.isDigit then some (digitsToNat ds) else none

/-- Strip leading and trailing whitespace, as `int(str)` does before parsing. -/
def stripPyWs (l : List Char) : List Char :=
  ((l.dropWhile isPyWs).reverse.dropWhile isPyWs).reverse

/-- Python `int(s)` on a string: strip surrounding whitespace, optional sign,
one or more digits; `none` where Python raises `ValueError`. (Underscore
digit grouping is not modelled; no string reaching `int()` in this script
contains an underscore, since it must first match `^\d+$`.) -/
def pyStrToInt (s : String) : Option Int :=
  match stripPyWs s.data with
  | [] => none
  | c :: rest =>
    if c == '+' then (parseDigits rest).map (fun n => (n : Int))
    else if c == '-' then (parseDigits rest).map (fun n => -(n : Int))
    else (parseDigits (c :: rest)).map (fun n => (n : Int))

/-- Python `int(x)` on a float truncates toward zero. -/
def ratTrunc (q : Rat) : Int := Int.tdiv q.num (q.den : Int)

/-- Python `int(value)` on a value passing the eligibility test. The string
case falls back to `0` where `int()` would raise; `convertE_refines_convert`
shows that fallback is unreachable from `convert_to_bigint`. -/
def intOfValue : JValue → JValue
  | .int n => .int n
  | .float q => .int (ratTrunc q)
  | .bool b => .int (if b then 1 else 0)
  | .str s => .int ((pyStrToInt s).getD 0)
  | v => v

mutual

/-- `convert_to_bigint(data)`: dicts have each target-keyed eligible value
replaced by `int(value)` and every other value converted recursively; lists
are converted elementwise in place; everything else is returned unchanged. -/
def convert : JValue → JValue
  | .obj entries => .obj (convertEntries entries)
  | .arr xs => .arr (convertList xs)
  | v => v
termination_by structural v => v

/-- The dict branch of `convert_to_bigint`: `for key, value in data.items()`,
replacing the value by `int(value)` when the key and value tests pass, and by
its recursive conversion otherwise. -/
def convertEntries : List (String × JValue) → List (String × JValue)
  | [] => []
  | (k, v) :: rest =>
    (k, if targetKey k && eligibleValue v then intOfValue v else convert v) ::
      convertEntries rest
termination_by structural es => es

/-- The list branch of `convert_to_bigint`. -/
def convertList : List JValue → List JValue
  | [] => []
  | x :: xs => convert x :: convertList xs
termination_by structural xs => xs

end

/-- The per-entry decision of `convert_to_bigint`'s dict branch, as a
standalone function. -/
def convertEntryVal (k : String) (v : JValue) : JValue :=
  if targetKey k && eligibleValue v then intOfValue v else convert v

theorem convertEntries_cons (k : String) (v : JValue)
    (rest : List (String × JValue)) :
    convertEntries ((k, v) :: rest) = (k, convertEntryVal k v) :: convertEntries rest :=
  rfl

/-- Python `int(value)` with its exceptions made explicit: `ValueError` on a
non-numeric string, `TypeError` on `None`, lists and dicts. -/
def pyIntE : JValue → Except String Int
  | .int n => .ok n
  | .float q => .ok (ratTrunc q)
  | .bool b => .ok (if b then 1 else 0)
  | .str s =>
    match pyStrToInt s with
    | some n => .ok n
    | none => .error "ValueError"
  | _ => .error "TypeError"

mutual

/-- `convert_to_bigint` with the possible `int()` exceptions made explicit:
an `Except.error` models an exception propagating out of the call. -/
def convertE : JValue → Except String JValue
  | .obj entries =>
    match convertEntriesE entries with
    | .ok es => .ok (.obj es)
    | .error e => .error e
  | .arr xs =>
    match convertListE xs with
    | .ok ys => .ok (.arr ys)
    | .error e => .error e
  | v => .ok v
termination_by structural v => v

/-- Entry list of the dict branch, propagating `int()` exceptions. -/
def convertEntriesE : List (String × JValue) → Except String (List (String × JValue))
  | [] => .ok []
  | (k, v) :: rest =>
    match
      (if targetKey k && eligibleValue v then
        match pyIntE v with
        | .ok n => .ok (JValue.int n)
        | .error e => .error e
      else convertE v) with
    | .error e => .error e
    | .ok w =>
      match convertEntriesE rest with
      | .ok ws => .ok ((k, w) :: ws)
      | .error e => .error e
termination_by structural es => es

/-- List branch, propagating `int()` exceptions. -/
def convertListE : List JValue → Except String (List JValue)
  | [] => .ok []
  | x :: xs =>
    match convertE x with
    | .error e => .error e
    | .ok y =>
      match convertListE xs with
      | .ok ys => .ok (y :: ys)
      | .error e => .error e
termination_by structural xs => xs

end

example : convert (.obj [("id", .str "007")]) = .obj [("id", .int 7)] := rfl
example : convert (.obj [("id", .str "-5")]) = .obj [("id", .str "-5")] := rfl
example : convert (.obj [("id", .str "5.0")]) = .obj [("id", .str "5.0")] := rfl
example : convert (.obj [("id", .str "7\n")]) = .obj [("id", .int 7)] := rfl
example : convert (.obj [("id", .bool true)]) = .obj [("id", .int 1)] := rfl
example : convert (.obj [("a", .obj [("start", .str "12")])]) =
    .obj [("a", .obj [("start", .int 12)])] := rfl
example : JValue.int 7 ≠ JValue.str "7" := by simp

/-- Structural induction principle for `JValue` with membership hypotheses
for the nested lists. -/
theorem JValue.inductionOn (P : JValue → Prop)
    (hnull : P .null) (hbool : ∀ b, P (.bool b)) (hint : ∀ n, P (.int n))
    (hfloat : ∀ q, P (.float q)) (hstr : ∀ s, P (.str s))
    (harr : ∀ xs, (∀ x ∈ xs, P x) → P (.arr xs))
    (hobj : ∀ es, (∀ kv ∈ es, P kv.2) → P (.obj es)) :
    ∀ v, P v
  | .null => hnull
  | .bool b => hbool b
  | .int n => hint n
  | .float q => hfloat q
  | .str s => hstr s
  | .arr xs =>
    harr xs (fun x _ =>
      JValue.inductionOn P hnull hbool hint hfloat hstr harr hobj x)
  | .obj es =>
    hobj es (fun kv _ =>
      JValue.inductionOn P hnull hbool hint hfloat hstr harr hobj kv.2)
termination_by v => sizeOf v
decreasing_by
  · have h1 : sizeOf x < sizeOf xs := List.sizeOf_lt_of_mem (by assumption)
    simp only [JValue.arr.sizeOf_spec]
    omega
  · have h1 : sizeOf kv < sizeOf es := List.sizeOf_lt_of_mem (by assumption)
    have h2 : sizeOf kv.2 < sizeOf kv := by
      obtain ⟨a, b⟩ := kv
      simp only [Prod.mk.sizeOf_spec]
      omega
    simp only [JValue.obj.sizeOf_spec]
    omega

/-- `convert` never turns an ineligible value into an eligible one: it leaves
scalars alone and keeps containers containers. -/
theorem eligibleValue_convert {v : JValue} (h : eligibleValue v = false) :
    eligibleValue (convert v) = false := by
  cases v <;> simp_all [eligibleValue, convert]

/-- On a value passing the eligibility test, `int(value)` yields an integer. -/
theorem intOfValue_of_eligible {v : JValue} (h : eligibleValue v = true) :
    ∃ n, intOfValue v = .int n := by
  cases v <;> simp_all [eligibleValue, intOfValue]

/-- A converted entry value is stable under a second conversion, given
idempotence below it. -/
theorem convertEntryVal_idem (k : String) {v : JValue}
    (ih : convert (convert v) = convert v) :
    convertEntryVal k (convertEntryVal k v) = convertEntryVal k v := by
  by_cases h : (targetKey k && eligibleValue v) = true
  · obtain ⟨hk, hv⟩ := Bool.and_eq_true_iff.mp h
    obtain ⟨n, hn⟩ := intOfValue_of_eligible hv
    have e1 : convertEntryVal k v = JValue.int n := by
      rw [convertEntryVal, if_pos h, hn]
    rw [e1, convertEntryVal]
    have e2 : (targetKey k && eligibleValue (JValue.int n)) = true := by
      simp [eligibleValue, hk]
    rw [if_pos e2]
    rfl
  · rcases Bool.and_eq_false_iff.mp (Bool.not_eq_true _ ▸ h) with hk | hv
    · simp [convertEntryVal, hk, ih]
    · have hc := eligibleValue_convert hv
      simp [convertEntryVal, hv, hc, ih]

theorem convertEntries_idem {es : List (String × JValue)}
    (ih : ∀ kv ∈ es, convert (convert kv.2) = convert kv.2) :
    convertEntries (convertEntries es) = convertEntries es := by
  induction es with
  | nil => rfl
  | cons kv rest ihl =>
    obtain ⟨k, v⟩ := kv
    rw [convertEntries_cons, convertEntries_cons]
    have h1 := convertEntryVal_idem k (ih (k, v) (by simp))
    have h2 := ihl (fun p hp => ih p (by simp [hp]))
    rw [h1, h2]

theorem convertList_idem {xs : List JValue}
    (ih : ∀ x ∈ xs, convert (convert x) = convert x) :
    convertList (convertList xs) = convertList xs := by
  induction xs with
  | nil => rfl
  | cons x rest ihl =>
    simp only [convertList]
    rw [ih x (by simp), ihl (fun y hy => ih y (by simp [hy]))]

theorem convert_idem (v : JValue) : convert (convert v) = convert v := by
  induction v using JValue.inductionOn with
  | hnull => rfl
  | hbool b => rfl
  | hint n => rfl
  | hfloat q => rfl
  | hstr s => rfl
  | harr xs ih => simp only [convert]; rw [convertList_idem ih]
  | hobj es ih => simp only [convert]; rw [convertEntries_idem ih]

theorem isPyWs_of_isDigit {c : Char} (h : c.isDigit = true) : isPyWs c = false := by
  cases hw : isPyWs c
  · rfl
  · exfalso
    simp only [isPyWs, Bool.or_eq_true, beq_iff_eq] at hw
    rcases hw with ((((h1 | h1) | h1) | h1) | h1) | h1 <;> subst h1 <;>
      exact absurd h (by decide)

theorem dropWhile_isPyWs_of_digits {l : List Char} (hne : l ≠ [])
    (hd : l.all Char.isDigit = true) : l.dropWhile isPyWs = l := by
  cases l with
  | nil => exact absurd rfl hne
  | cons c cs =>
    have hc : c.isDigit = true := by
      simp only [List.all_cons, Bool.and_eq_true] at hd
      exact hd.1
    simp [List.dropWhile_cons, isPyWs_of_isDigit hc]

theorem all_reverse_digits {l : List Char} (hd : l.all Char.isDigit = true) :
    l.reverse.all Char.isDigit = true := by
  rw [List.all_eq_true] at hd ⊢
  intro c hc
  exact hd c (List.mem_reverse.mp hc)

theorem stripPyWs_digits {ds : List Char} (hne : ds ≠ [])
    (hd : ds.all Char.isDigit = true) : stripPyWs ds = ds := by
  unfold stripPyWs
  rw [dropWhile_isPyWs_of_digits hne hd]
  rw [dropWhile_isPyWs_of_digits (by simpa using hne) (all_reverse_digits hd)]
  exact List.reverse_reverse ds

theorem stripPyWs_digits_newline {ds : List Char} (hne : ds ≠ [])
    (hd : ds.all Char.isDigit = true) : stripPyWs (ds ++ ['\n']) = ds := by
  unfold stripPyWs
  have h1 : (ds ++ ['\n']).dropWhile isPyWs = ds ++ ['\n'] := by
    cases ds with
    | nil => exact absurd rfl hne
    | cons c cs =>
      have hc : c.isDigit = true := by
        simp only [List.all_cons, Bool.and_eq_true] at hd
        exact hd.1
      simp [List.dropWhile_cons, isPyWs_of_isDigit hc]
  rw [h1, List.reverse_append]
  have h2 : (['\n'].reverse ++ ds.reverse).dropWhile isPyWs = ds.reverse.dropWhile isPyWs := by
    simp [List.dropWhile_cons, isPyWs]
  rw [h2, dropWhile_isPyWs_of_digits (by simpa using hne) (all_reverse_digits hd)]
  exact List.reverse_reverse ds

theorem data_eq_matchCore_or (s : String) :
    s.data = matchCore s ∨ s.data = matchCore s ++ ['\n'] := by
  unfold matchCore
  by_cases hl : s.data.getLast? == some '\n'
  · right
    rw [if_pos hl]
    rcases List.eq_nil_or_concat s.data with h | ⟨l, c, h⟩
    · rw [h] at hl
      exact absurd hl (by decide)
    · rw [List.concat_eq_append] at h
      have hc : c = '\n' := by
        rw [h, List.getLast?_concat] at hl
        simpa using hl
      rw [h, hc, List.dropLast_concat]
  · left
    rw [if_neg hl]

/-- On a string matched by `^\d+$`, Python `int()` succeeds and returns the
value of the digit run (any trailing newline is stripped as whitespace). -/
theorem pyStrToInt_of_match {s : String} (h : reMatchDigitsEnd s = true) :
    pyStrToInt s = some (Int.ofNat (digitsToNat (matchCore s))) := by
  obtain ⟨hne0, hall⟩ := Bool.and_eq_true_iff.mp h
  have hne : matchCore s ≠ [] := by
    simpa [List.isEmpty_iff] using hne0
  have hstrip : stripPyWs s.data = matchCore s := by
    rcases data_eq_matchCore_or s with hsp | hsp <;> rw [hsp]
    · exact stripPyWs_digits hne hall
    · exact stripPyWs_digits_newline hne hall
  unfold pyStrToInt
  rw [hstrip]
  cases hc : matchCore s with
  | nil => exact absurd hc hne
  | cons c cs =>
    have hcd : c.isDigit = true := by
      rw [hc, List.all_cons, Bool.and_eq_true] at hall
      exact hall.1
    have hplus : (c == '+') = false := by
      cases hp : c == '+'
      · rfl
      · rw [beq_iff_eq] at hp
        subst hp
        exact absurd hcd (by decide)
    have hminus : (c == '-') = false := by
      cases hp : c == '-'
      · rfl
      · rw [beq_iff_eq] at hp
        subst hp
        exact absurd hcd (by decide)
    rw [hc] at hall
    simp only [hplus, hminus, Bool.false_eq_true, if_false]
    rw [parseDigits, if_pos (by simp [hall])]
    rfl

/-- On a value passing the eligibility test, modelled `int()` agrees with its
exception-free counterpart and produces an integer. -/
theorem pyIntE_of_eligible {v : JValue} (h : eligibleValue v = true) :
    ∃ n, pyIntE v = .ok n ∧ intOfValue v = .int n := by
  cases v with
  | int n => exact ⟨n, rfl, rfl⟩
  | float q => exact ⟨ratTrunc q, rfl, rfl⟩
  | bool b => exact ⟨if b then 1 else 0, rfl, rfl⟩
  | str s =>
    have hm : reMatchDigitsEnd s = true := h
    refine ⟨Int.ofNat (digitsToNat (matchCore s)), ?_, ?_⟩
    · simp only [pyIntE]
      rw [pyStrToInt_of_match hm]
    · simp only [intOfValue]
      rw [pyStrToInt_of_match hm]
      rfl
  | null => exact absurd h (by decide)
  | arr xs => exact absurd h (by simp [eligibleValue])
  | obj es => exact absurd h (by simp [eligibleValue])

theorem convertEntriesE_ok {es : List (String × JValue)}
    (ih : ∀ kv ∈ es, convertE kv.2 = .ok (convert kv.2)) :
    convertEntriesE es = .ok (convertEntries es) := by
  induction es with
  | nil => rfl
  | cons kv rest ihl =>
    obtain ⟨k, v⟩ := kv
    have hrest : convertEntriesE rest = .ok (convertEntries rest) :=
      ihl (fun p hp => ih p (by simp [hp]))
    by_cases h : (targetKey k && eligibleValue v) = true
    · obtain ⟨n, hE, hI⟩ := pyIntE_of_eligible (Bool.and_eq_true_iff.mp h).2
      simp only [convertEntriesE, convertEntries, h, if_true, hE, hrest, hI]
    · have hv : convertE v = .ok (convert v) := ih (k, v) (by simp)
      simp only [convertEntriesE, convertEntries, h, if_false, hv, hrest,
        Bool.false_eq_true]

theorem convertListE_ok {xs : List JValue}
    (ih : ∀ x ∈ xs, convertE x = .ok (convert x)) :
    convertListE xs = .ok (convertList xs) := by
  induction xs with
  | nil => rfl
  | cons x rest ihl =>
    have hx : convertE x = .ok (convert x) := ih x (by simp)
    have hrest : convertListE rest = .ok (convertList rest) :=
      ihl (fun y hy => ih y (by simp [hy]))
    simp only [convertListE, convertList, hx, hrest]

/-- `convert_to_bigint` never raises: the exception-explicit model returns
`ok` with the pure result on every JSON value. -/
theorem convertE_refines_convert (v : JValue) :
    convertE v = .ok (convert v) := by
  induction v using JValue.inductionOn with
  | hnull => rfl
  | hbool b => rfl
  | hint n => rfl
  | hfloat q => rfl
  | hstr s => rfl
  | harr xs ih => simp only [convertE, convert, convertListE_ok ih]
  | hobj es ih => simp only [convertE, convert, convertEntriesE_ok ih]

mutual

/-- No object entry anywhere in the value pairs a target key with a value
passing the code's eligibility test (the precise condition under which
`convert_to_bigint` rewrites an entry). -/
def noConvertibleEntry : JValue → Bool
  | .obj es => noConvertibleEntries es
  | .arr xs => noConvertibleList xs
  | _ => true
termination_by structural v => v

def noConvertibleEntries : List (String × JValue) → Bool
  | [] => true
  | (k, v) :: rest =>
    !(targetKey k && eligibleValue v) && noConvertibleEntry v &&
      noConvertibleEntries rest
termination_by structural es => es

def noConvertibleList : List JValue → Bool
  | [] => true
  | x :: xs => noConvertibleEntry x && noConvertibleList xs
termination_by structural xs => xs

end

/-- The claims' notion of a convertible value: a number (JSON integer or
float), or a string composed entirely of one or more decimal digits — no
sign, no surrounding whitespace, no decimal point. -/
def claimEligible : JValue → Bool
  | .int _ => true
  | .float _ => true
  | .str s => !s.data.isEmpty && s.data.all Char.isDigit
  | _ => false

mutual

/-- No object entry anywhere in the value pairs a target key with a
digit-only string or a number (the claims' stated condition). -/
def noClaimConvertibleEntry : JValue → Bool
  | .obj es => noClaimConvertibleEntries es
  | .arr xs => noClaimConvertibleList xs
  | _ => true
termination_by structural v => v

def noClaimConvertibleEntries : List (String × JValue) → Bool
  | [] => true
  | (k, v) :: rest =>
    !(targetKey k && claimEligible v) && noClaimConvertibleEntry v &&
      noClaimConvertibleEntries rest
termination_by structural es => es

def noClaimConvertibleList : List JValue → Bool
  | [] => true
  | x :: xs => noClaimConvertibleEntry x && noClaimConvertibleList xs
termination_by structural xs => xs

end

theorem convertEntries_of_noConvertible {es : List (String × JValue)}
    (ih : ∀ kv ∈ es, noConvertibleEntry kv.2 = true → convert kv.2 = kv.2)
    (h : noConvertibleEntries es = true) : convertEntries es = es := by
  induction es with
  | nil => rfl
  | cons kv rest ihl =>
    obtain ⟨k, v⟩ := kv
    simp only [noConvertibleEntries, Bool.and_eq_true, Bool.not_eq_true'] at h
    obtain ⟨⟨hcond, hv⟩, hrest⟩ := h
    rw [convertEntries_cons, convertEntryVal, if_neg (by simp [hcond])]
    rw [ih (k, v) (by simp) hv, ihl (fun p hp hq => ih p (by simp [hp]) hq) hrest]

theorem convertList_of_noConvertible {xs : List JValue}
    (ih : ∀ x ∈ xs, noConvertibleEntry x = true → convert x = x)
    (h : noConvertibleList xs = true) : convertList xs = xs := by
  induction xs with
  | nil => rfl
  | cons x rest ihl =>
    simp only [noConvertibleList, Bool.and_eq_true] at h
    simp only [convertList]
    rw [ih x (by simp) h.1, ihl (fun y hy hq => ih y (by simp [hy]) hq) h.2]

theorem convert_eq_self_of_noConvertible (v : JValue)
    (h : noConvertibleEntry v = true) : convert v = v := by
  induction v using JValue.inductionOn with
  | hnull => rfl
  | hbool b => rfl
  | hint n => rfl
  | hfloat q => rfl
  | hstr s => rfl
  | harr xs ih =>
    simp only [convert]
    rw [convertList_of_noConvertible ih (by simpa [noConvertibleEntry] using h)]
  | hobj es ih =>
    simp only [convert]
    rw [convertEntries_of_noConvertible ih (by simpa [noConvertibleEntry] using h)]

/-- The structural skeleton of a JSON value: object keys with their order,
nesting, and sequence lengths, with all scalar contents erased. -/
inductive KeyShape where
  | leaf : KeyShape
  | arr (xs : List KeyShape) : KeyShape
  | obj (es : List (String × KeyShape)) : KeyShape

mutual

/-- Erase a JSON value to its structural skeleton. -/
def keyShape : JValue → KeyShape
  | .obj es => .obj (keyShapeEntries es)
  | .arr xs => .arr (keyShapeList xs)
  | _ => .leaf
termination_by structural v => v

def keyShapeEntries : List (String × JValue) → List (String × KeyShape)
  | [] => []
  | (k, v) :: rest => (k, keyShape v) :: keyShapeEntries rest
termination_by structural es => es

def keyShapeList : List JValue → List KeyShape
  | [] => []
  | x :: xs => keyShape x :: keyShapeList xs
termination_by structural xs => xs

end

/-- `y` is the integer obtained by applying `int()` to `x`. -/
def intEqOf (x y : JValue) : Bool :=
  match intOfValue x, y with
  | .int n, .int m => n == m
  | _, _ => false

mutual

/-- Pointwise comparison allowing, at object entries only, the replacement of
a target-keyed eligible value by its `int()` image; everything else must be
identical, with order, nesting and lengths preserved. -/
def diffOK : JValue → JValue → Bool
  | .null, .null => true
  | .bool a, .bool b => a == b
  | .int a, .int b => a == b
  | .float a, .float b => a == b
  | .str a, .str b => a == b
  | .arr xs, .arr ys => diffOKList xs ys
  | .obj es, .obj fs => diffOKEntries es fs
  | _, _ => false
termination_by structural x => x

def diffOKList : List JValue → List JValue → Bool
  | [], [] => true
  | x :: xs, y :: ys => diffOK x y && diffOKList xs ys
  | _, _ => false
termination_by structural xs => xs

def diffOKEntries : List (String × JValue) → List (String × JValue) → Bool
  | [], [] => true
  | (k, x) :: es, (k2, y) :: fs =>
    k == k2 && (diffOK x y || (targetKey k && eligibleValue x && intEqOf x y)) &&
      diffOKEntries es fs
  | _, _ => false
termination_by structural es => es

end

theorem eligibleValue_keyShape {v : JValue} (h : eligibleValue v = true) :
    keyShape v = .leaf := by
  cases v <;> first | rfl | exact absurd h (by simp [eligibleValue])

theorem keyShape_convertEntries {es : List (String × JValue)}
    (ih : ∀ kv ∈ es, keyShape (convert kv.2) = keyShape kv.2) :
    keyShapeEntries (convertEntries es) = keyShapeEntries es := by
  induction es with
  | nil => rfl
  | cons kv rest ihl =>
    obtain ⟨k, v⟩ := kv
    rw [convertEntries_cons]
    simp only [keyShapeEntries]
    rw [ihl (fun p hp => ih p (by simp [hp]))]
    by_cases h : (targetKey k && eligibleValue v) = true
    · obtain ⟨n, hn⟩ := intOfValue_of_eligible (Bool.and_eq_true_iff.mp h).2
      rw [convertEntryVal, if_pos h, hn,
        eligibleValue_keyShape (Bool.and_eq_true_iff.mp h).2]
      rfl
    · rw [convertEntryVal, if_neg h, ih (k, v) (by simp)]

theorem keyShape_convertList {xs : List JValue}
    (ih : ∀ x ∈ xs, keyShape (convert x) = keyShape x) :
    keyShapeList (convertList xs) = keyShapeList xs := by
  induction xs with
  | nil => rfl
  | cons x rest ihl =>
    simp only [convertList, keyShapeList]
    rw [ih x (by simp), ihl (fun y hy => ih y (by simp [hy]))]

/-- `convert_to_bigint` preserves the structural skeleton of its input. -/
theorem keyShape_convert (v : JValue) : keyShape (convert v) = keyShape v := by
  induction v using JValue.inductionOn with
  | hnull => rfl
  | hbool b => rfl
  | hint n => rfl
  | hfloat q => rfl
  | hstr s => rfl
  | harr xs ih => simp only [convert, keyShape]; rw [keyShape_convertList ih]
  | hobj es ih => simp only [convert, keyShape]; rw [keyShape_convertEntries ih]

theorem diffOK_refl (v : JValue) : diffOK v v = true := by
  induction v using JValue.inductionOn with
  | hnull => rfl
  | hbool b => simp [diffOK]
  | hint n => simp [diffOK]
  | hfloat q => simp [diffOK]
  | hstr s => simp [diffOK]
  | harr xs ih =>
    simp only [diffOK]
    induction xs with
    | nil => rfl
    | cons x rest ihl =>
      simp only [diffOKList, Bool.and_eq_true]
      exact ⟨ih x (by simp), ihl (fun y hy => ih y (by simp [hy]))⟩
  | hobj es ih =>
    simp only [diffOK]
    induction es with
    | nil => rfl
    | cons kv rest ihl =>
      obtain ⟨k, v⟩ := kv
      simp only [diffOKEntries, Bool.and_eq_true, Bool.or_eq_true,
        beq_self_eq_true, true_and]
      exact ⟨Or.inl (ih (k, v) (by simp)), ihl (fun p hp => ih p (by simp [hp]))⟩

theorem diffOK_convertEntries {es : List (String × JValue)}
    (ih : ∀ kv ∈ es, diffOK kv.2 (convert kv.2) = true) :
    diffOKEntries es (convertEntries es) = true := by
  induction es with
  | nil => rfl
  | cons kv rest ihl =>
    obtain ⟨k, v⟩ := kv
    rw [convertEntries_cons]
    simp only [diffOKEntries, Bool.and_eq_true, Bool.or_eq_true,
      beq_self_eq_true, true_and]
    refine ⟨?_, ihl (fun p hp => ih p (by simp [hp]))⟩
    by_cases h : (targetKey k && eligibleValue v) = true
    · right
      obtain ⟨hk, hv⟩ := Bool.and_eq_true_iff.mp h
      obtain ⟨n, hn⟩ := intOfValue_of_eligible hv
      rw [convertEntryVal, if_pos h]
      simp [hk, hv, intEqOf, hn]
    · left
      rw [convertEntryVal, if_neg h]
      exact ih (k, v) (by simp)

theorem diffOK_convertList {xs : List JValue}
    (ih : ∀ x ∈ xs, diffOK x (convert x) = true) :
    diffOKList xs (convertList xs) = true := by
  induction xs with
  | nil => rfl
  | cons x rest ihl =>
    simp only [convertList, diffOKList, Bool.and_eq_true]
    exact ⟨ih x (by simp), ihl (fun y hy => ih y (by simp [hy]))⟩

/-- All differences between the input and the output of `convert_to_bigint`
are confined to object entries with a target key and an eligible value, which
are replaced by their `int()` image. -/
theorem diffOK_convert (v : JValue) : diffOK v (convert v) = true := by
  induction v using JValue.inductionOn with
  | hnull => rfl
  | hbool b => simp [convert, diffOK]
  | hint n => simp [convert, diffOK]
  | hfloat q => simp [convert, diffOK]
  | hstr s => simp [convert, diffOK]
  | harr xs ih => simp only [convert, diffOK]; exact diffOK_convertList ih
  | hobj es ih => simp only [convert, diffOK]; exact diffOK_convertEntries ih

/-- Spec-level wording of the strings the code's `^\d+$` test accepts: one or
more decimal digits, or one or more decimal digits followed by exactly one
trailing newline. -/
def specDigitCond (s : String) : Bool :=
  (!s.data.isEmpty && s.data.all Char.isDigit) ||
    (!s.data.dropLast.isEmpty && s.data.dropLast.all Char.isDigit &&
      s.data.getLast? == some '\n')

theorem data_eq_dropLast_newline {s : String}
    (hl : (s.data.getLast? == some '\n') = true) :
    s.data = s.data.dropLast ++ ['\n'] := by
  rcases List.eq_nil_or_concat s.data with h | ⟨l, c, h⟩
  · rw [h] at hl
    exact absurd hl (by decide)
  · rw [List.concat_eq_append] at h
    have hc : c = '\n' := by
      rw [h, List.getLast?_concat] at hl
      simpa using hl
    rw [h, hc, List.dropLast_concat]

theorem specDigitCond_eq_reMatch (s : String) :
    specDigitCond s = reMatchDigitsEnd s := by
  unfold specDigitCond reMatchDigitsEnd matchCore
  by_cases hl : (s.data.getLast? == some '\n') = true
  · have hdata := data_eq_dropLast_newline hl
    have hall : s.data.all Char.isDigit = false := by
      rw [hdata, List.all_append]
      simp [List.all_cons]
    rw [if_pos hl, hl, hall]
    simp
  · have hl2 : (s.data.getLast? == some '\n') = false := by simpa using hl
    rw [if_neg hl, hl2]
    simp

theorem takeWhile_digits_newline {ds : List Char}
    (hd : ds.all Char.isDigit = true) :
    (ds ++ ['\n']).takeWhile Char.isDigit = ds := by
  induction ds with
  | nil => rfl
  | cons c cs ih =>
    simp only [List.all_cons, Bool.and_eq_true] at hd
    simp only [List.cons_append, List.takeWhile_cons, hd.1, if_true]
    rw [ih hd.2]

theorem takeWhile_digits_self {ds : List Char}
    (hd : ds.all Char.isDigit = true) :
    ds.takeWhile Char.isDigit = ds := by
  induction ds with
  | nil => rfl
  | cons c cs ih =>
    simp only [List.all_cons, Bool.and_eq_true] at hd
    simp only [List.takeWhile_cons, hd.1, if_true]
    rw [ih hd.2]

theorem matchCore_eq_takeWhile {s : String} (h : reMatchDigitsEnd s = true) :
    matchCore s = s.data.takeWhile Char.isDigit := by
  obtain ⟨hne0, hall⟩ := Bool.and_eq_true_iff.mp h
  unfold matchCore at hall ⊢
  by_cases hl : (s.data.getLast? == some '\n') = true
  · rw [if_pos hl] at hall ⊢
    have hdata := data_eq_dropLast_newline hl
    conv_rhs => rw [hdata]
    rw [takeWhile_digits_newline hall]
  · rw [if_neg hl] at hall ⊢
    rw [takeWhile_digits_self hall]

/-- Spec-level description of the fate of a value under a target key:
numbers become integers (floats truncated toward zero, booleans as 0/1); a
string of one or more decimal digits, optionally followed by a single
trailing newline, becomes the value of its leading digit run; any other
value is processed recursively, which leaves scalars unchanged. -/
def targetEntrySpec : JValue → JValue
  | .int n => .int n
  | .float q => .int (ratTrunc q)
  | .bool b => .int (if b then 1 else 0)
  | .str s =>
    if specDigitCond s then
      .int (Int.ofNat (digitsToNat (s.data.takeWhile Char.isDigit)))
    else .str s
  | v => convert v

theorem targetKey_of_mem {k : String}
    (hk : k = "id" ∨ k = "start" ∨ k = "end") : targetKey k = true := by
  rcases hk with h | h | h <;> subst h <;> rfl

/-- C1, counterexample to the claim as stated: the value `"7\n"` is not a
string of digits free of trailing whitespace — it is not claim-eligible — yet
`convert_to_bigint` replaces it under the key `"id"` by the integer 7,
because Python's `$` also matches just before a trailing newline and `int()`
strips whitespace. The claim says such an entry is left as the original
string. -/
theorem c1_counterexample :
    claimEligible (JValue.str "7\n") = false ∧
      convertEntryVal "id" (JValue.str "7\n") = JValue.int 7 :=
  ⟨by decide, rfl⟩

/-- Under a target key, the per-entry conversion agrees with the spec-level
description `targetEntrySpec`. -/
theorem convertEntryVal_target_spec (k : String) (v : JValue)
    (ht : targetKey k = true) :
    convertEntryVal k v = targetEntrySpec v := by
  cases v with
  | int n =>
    rw [convertEntryVal, if_pos (by simp [ht, eligibleValue])]
    rfl
  | float q =>
    rw [convertEntryVal, if_pos (by simp [ht, eligibleValue])]
    rfl
  | bool b =>
    rw [convertEntryVal, if_pos (by simp [ht, eligibleValue])]
    rfl
  | str s =>
    by_cases hm : reMatchDigitsEnd s = true
    · rw [convertEntryVal, if_pos (by simp [ht, eligibleValue, hm])]
      simp only [intOfValue]
      rw [pyStrToInt_of_match hm]
      simp only [Option.getD_some, targetEntrySpec]
      rw [specDigitCond_eq_reMatch, if_pos hm, matchCore_eq_takeWhile hm]
    · have hm2 : reMatchDigitsEnd s = false := by simpa using hm
      rw [convertEntryVal, if_neg (by simp [eligibleValue, hm2])]
      simp only [convert, targetEntrySpec]
      rw [specDigitCond_eq_reMatch, if_neg (by simp [hm2])]
  | null =>
    rw [convertEntryVal, if_neg (by simp [eligibleValue])]
    rfl
  | arr xs =>
    rw [convertEntryVal, if_neg (by simp [eligibleValue])]
    rfl
  | obj es =>
    rw [convertEntryVal, if_neg (by simp [eligibleValue])]
    rfl

/-- C1 (amended): an entry is replaced by the integer parsed from its value
exactly when its key is `id`, `start` or `end` and its value is a number
(integers kept, floats truncated toward zero, booleans as 0/1) or a string of
one or more decimal digits optionally followed by a single trailing newline,
whose leading digit run gives the integer (`"007"` becomes 7, `"7\n"` becomes
7); any other value — in particular `"-5"` and `"5.0"` — is processed
recursively, which leaves strings and other scalars unchanged; an entry
under any other key is never replaced, only processed recursively. -/
theorem c1_target_entry_characterization :
    (∀ (k : String) (v : JValue), (k = "id" ∨ k = "start" ∨ k = "end") →
        convertEntryVal k v = targetEntrySpec v) ∧
      ∀ (k : String) (v : JValue), targetKey k = false →
        convertEntryVal k v = convert v := by
  constructor
  · intro k v hk
    exact convertEntryVal_target_spec k v (targetKey_of_mem hk)
  · intro k v hk
    rw [convertEntryVal, if_neg (by simp [hk])]

/-- Witness for C1's amended theorem at the concrete inputs of the claim:
`"007"` under `"id"` becomes the integer 7, while the same digit string under
a non-target key stays a string. -/
theorem c1_witness :
    convertEntryVal "id" (JValue.str "007") = JValue.int 7 ∧
      convertEntryVal "other" (JValue.str "007") = JValue.str "007" := by
  constructor
  · rw [c1_target_entry_characterization.1 "id" (JValue.str "007") (Or.inl rfl)]
    rfl
  · rw [c1_target_entry_characterization.2 "other" (JValue.str "007") rfl]
    rfl

/-- C2, counterexample to the claim as stated: the document
`{"id": "7\n"}` contains no key `id`/`start`/`end` whose value is a
digit-only string or a number, yet `convert` changes it to `{"id": 7}`. -/
theorem c2_counterexample :
    noClaimConvertibleEntry (JValue.obj [("id", JValue.str "7\n")]) = true ∧
      convert (JValue.obj [("id", JValue.str "7\n")]) ≠
        JValue.obj [("id", JValue.str "7\n")] := by
  refine ⟨by decide, ?_⟩
  intro h
  rw [show convert (JValue.obj [("id", JValue.str "7\n")]) =
      JValue.obj [("id", JValue.int 7)] from rfl] at h
  simp at h

/-- C2 (amended): for every JSON value with no object entry pairing a target
key with a value the code's test accepts (a number, a boolean, or a digit
string with at most one trailing newline), `convert` returns the value
structurally unchanged. -/
theorem c2_identity_without_convertible_entries (v : JValue)
    (h : noConvertibleEntry v = true) : convert v = v :=
  convert_eq_self_of_noConvertible v h

/-- Witness for C2's amended theorem on a concrete document with digit
strings under non-target keys and a signed string under a target key. -/
theorem c2_witness :
    convert (JValue.obj [("a", JValue.str "5"), ("id", JValue.str "-5"),
        ("b", JValue.arr [JValue.str "9", JValue.null])]) =
      JValue.obj [("a", JValue.str "5"), ("id", JValue.str "-5"),
        ("b", JValue.arr [JValue.str "9", JValue.null])] :=
  c2_identity_without_convertible_entries _ (by decide)

/-- C4, counterexample to the claim as stated: `{"end": "12\n"}` contains no
eligible target-field value in the claim's sense (a number or digit-only
string), so by the claimed invariant the output should be identical to the
input; the code nevertheless rewrites the field to the integer 12. -/
theorem c4_counterexample :
    noClaimConvertibleEntry (JValue.obj [("end", JValue.str "12\n")]) = true ∧
      convert (JValue.obj [("end", JValue.str "12\n")]) ≠
        JValue.obj [("end", JValue.str "12\n")] := by
  refine ⟨by decide, ?_⟩
  intro h
  rw [show convert (JValue.obj [("end", JValue.str "12\n")]) =
      JValue.obj [("end", JValue.int 12)] from rfl] at h
  simp at h

/-- C4 (amended): the output of `convert` has the same structural skeleton as
the input — no key added or removed, no ordering or nesting altered, every
sequence keeping its order and length — and every difference is confined to
an object entry whose key is a target key and whose value passes the code's
numeric test, replaced there by its `int()` image. -/
theorem c4_structure_preservation (v : JValue) :
    keyShape (convert v) = keyShape v ∧ diffOK v (convert v) = true :=
  ⟨keyShape_convert v, diffOK_convert v⟩

/-- C5: `convert_to_bigint` is idempotent. -/
theorem c5_convert_idempotent (v : JValue) :
    convert (convert v) = convert v :=
  convert_idem v

/-- C9: `convert_to_bigint` is total on JSON values — the exception-explicit
model returns `ok` (never an error) with the pure result on every input, and
the function is defined by structural recursion, hence terminating. -/
theorem c9_convert_total_no_exception (v : JValue) :
    convertE v = Except.ok (convert v) :=
  convertE_refines_convert v

/-- C10: a boolean under a target key is replaced by an integer — `true`
becomes 1 and `false` becomes 0 — because Python's `isinstance(value, int)`
accepts booleans and `int(True) == 1`, `int(False) == 0`. -/
theorem c10_target_bool_to_int (k : String) (b : Bool)
    (hk : k = "id" ∨ k = "start" ∨ k = "end") :
    convertEntryVal k (JValue.bool b) = JValue.int (if b then 1 else 0) := by
  rw [convertEntryVal, if_pos (by simp [targetKey_of_mem hk, eligibleValue])]
  rfl

/-- Witness for C10 at concrete inputs: `true` under `"id"` becomes 1 and
`false` under `"start"` becomes 0. -/
theorem c10_witness :
    convertEntryVal "id" (JValue.bool true) = JValue.int 1 ∧
      convertEntryVal "start" (JValue.bool false) = JValue.int 0 :=
  ⟨c10_target_bool_to_int "id" true (Or.inl rfl),
    c10_target_bool_to_int "start" false (Or.inr (Or.inl rfl))⟩

/-- Lowercase hexadecimal digit, as used in json's `\uXXXX` escapes. -/
def hexDigit (n : Nat) : Char := "0123456789abcdef".data.getD n '0'

/-- Decimal digit character. -/
def decDigit (n : Nat) : Char := "0123456789".data.getD n '0'

/-- Escaping of one character inside a JSON string literal, following
CPython `json.dumps` with its default `ensure_ascii=True`: two-character
escapes for the quote, the backslash and the control characters
`\b \t \n \f \r`; `\u00XX` for the other control characters; the character
itself for printable ASCII (U+0020 to U+007E); `\uXXXX` — with a surrogate
pair above U+FFFF — for everything else. -/
def escChar (c : Char) : List Char :=
  if c = '"' then ['\\', '"']
  else if c = '\\' then ['\\', '\\']
  else if c = '\n' then ['\\', 'n']
  else if c = '\t' then ['\\', 't']
  else if c = '\r' then ['\\', 'r']
  else if c = Char.ofNat 8 then ['\\', 'b']
  else if c = Char.ofNat 12 then ['\\', 'f']
  else if c.toNat < 32 then
    ['\\', 'u', '0', '0', hexDigit (c.toNat / 16), hexDigit (c.toNat % 16)]
  else if c.toNat < 127 then [c]
  else if c.toNat < 65536 then
    ['\\', 'u', hexDigit (c.toNat / 4096), hexDigit (c.toNat / 256 % 16),
      hexDigit (c.toNat / 16 % 16), hexDigit (c.toNat % 16)]
  else
    ['\\', 'u', hexDigit ((55296 + (c.toNat - 65536) / 1024) / 4096),
      hexDigit ((55296 + (c.toNat - 65536) / 1024) / 256 % 16),
      hexDigit ((55296 + (c.toNat - 65536) / 1024) / 16 % 16),
      hexDigit ((55296 + (c.toNat - 65536) / 1024) % 16),
      '\\', 'u', hexDigit ((56320 + (c.toNat - 65536) % 1024) / 4096),
      hexDigit ((56320 + (c.toNat - 65536) % 1024) / 256 % 16),
      hexDigit ((56320 + (c.toNat - 65536) % 1024) / 16 % 16),
      hexDigit ((56320 + (c.toNat - 65536) % 1024) % 16)]

/-- A JSON string literal: quote, escaped characters, quote. -/
def strLit (s : String) : String :=
  String.mk ('"' :: (s.data.map escChar).flatten ++ ['"'])

/-- Decimal digits of a natural number, most significant first; the fuel is
an upper bound on the number of digits. -/
def natToDigitsAux : Nat → Nat → List Char
  | 0, _ => []
  | fuel + 1, n =>
    if n < 10 then [decDigit n]
    else natToDigitsAux fuel (n / 10) ++ [decDigit (n % 10)]

/-- Decimal digits of a natural number, most significant first. -/
def natToDigits (n : Nat) : List Char := natToDigitsAux (n + 1) n

/-- Python `str` of an integer: optional minus sign, then decimal digits. -/
def intToDigits (n : Int) : List Char :=
  if n < 0 then '-' :: natToDigits n.natAbs else natToDigits n.toNat

/-- Fractional decimal digits of `num/den`, fuel-bounded. -/
def fracDigits : Nat → Nat → Nat → List Char
  | 0, _, _ => []
  | fuel + 1, num, den =>
    if num = 0 then []
    else decDigit (num * 10 / den) :: fracDigits fuel (num * 10 % den) den

/-- Decimal rendering of a float value. CPython prints the shortest decimal
repr of the IEEE double; this model prints the exact rational's expansion to
at most 17 fractional digits (and `.0` for integral floats, as Python does).
No claim depends on the digits printed for a float. -/
def floatRepr (q : Rat) : List Char :=
  (if q < 0 then ['-'] else []) ++ natToDigits (q.num.natAbs / q.den) ++
    '.' :: (if q.num.natAbs % q.den = 0 then ['0']
      else fracDigits 17 (q.num.natAbs % q.den) q.den)

mutual

/-- `json.dumps` with default arguments, as called by `process_file`: item
separator `", "`, key separator `": "`, no indentation, ASCII escaping. -/
def dumps : JValue → String
  | .null => "null"
  | .bool true => "true"
  | .bool false => "false"
  | .int n => String.mk (intToDigits n)
  | .float q => String.mk (floatRepr q)
  | .str s => strLit s
  | .arr xs => "[" ++ dumpsList xs ++ "]"
  | .obj es => "\x7b" ++ dumpsEntries es ++ "\x7d"
termination_by structural v => v

def dumpsList : List JValue → String
  | [] => ""
  | [x] => dumps x
  | x :: xs => dumps x ++ ", " ++ dumpsList xs
termination_by structural xs => xs

def dumpsEntries : List (String × JValue) → String
  | [] => ""
  | [(k, v)] => strLit k ++ ": " ++ dumps v
  | (k, v) :: rest => strLit k ++ ": " ++ dumps v ++ ", " ++ dumpsEntries rest
termination_by structural es => es

end

/-- JSON whitespace, as skipped by Python's json decoder. -/
def isJsonWs (c : Char) : Bool :=
  c == ' ' || c == '\t' || c == '\n' || c == '\r'

/-- Skip JSON whitespace. -/
def skipWs (l : List Char) : List Char := l.dropWhile isJsonWs

/-- Value of a hexadecimal digit. -/
def hexVal (c : Char) : Option Nat :=
  if c.isDigit then some (c.toNat - 48)
  else if 'a' ≤ c && c ≤ 'f' then some (c.toNat - 87)
  else if 'A' ≤ c && c ≤ 'F' then some (c.toNat - 55)
  else none

/-- Decoding of a single-character JSON string escape. -/
def escDecode (c : Char) : Option Char :=
  if c = '"' then some '"'
  else if c = '\\' then some '\\'
  else if c = '/' then some '/'
  else if c = 'b' then some (Char.ofNat 8)
  else if c = 'f' then some (Char.ofNat 12)
  else if c = 'n' then some '\n'
  else if c = 'r' then some '\r'
  else if c = 't' then some '\t'
  else none

/-- Body of a JSON string literal after the opening quote, in strict mode:
unescaped control characters are an error; `\uXXXX` escapes combine surrogate
pairs. (CPython tolerates lone surrogates, which a Lean `Char` cannot carry;
no input in this development contains one.) Returns the decoded characters
and the remaining input. -/
def parseStringBody : Nat → List Char → Option (List Char × List Char)
  | 0, _ => none
  | _ + 1, [] => none
  | fuel + 1, c :: cs =>
    if c = '"' then some ([], cs)
    else if c = '\\' then
      match cs with
      | [] => none
      | e :: cs2 =>
        if e = 'u' then
          match cs2 with
          | h1 :: h2 :: h3 :: h4 :: cs3 =>
            match hexVal h1, hexVal h2, hexVal h3, hexVal h4 with
            | some a, some b, some c2, some d =>
              let v := ((a * 16 + b) * 16 + c2) * 16 + d
              if 55296 ≤ v && v ≤ 56319 then
                match cs3 with
                | '\\' :: 'u' :: g1 :: g2 :: g3 :: g4 :: cs4 =>
                  match hexVal g1, hexVal g2, hexVal g3, hexVal g4 with
                  | some a2, some b2, some c3, some d2 =>
                    let w := ((a2 * 16 + b2) * 16 + c3) * 16 + d2
                    if 56320 ≤ w && w ≤ 57343 then
                      (parseStringBody fuel cs4).map
                        (fun r =>
                          (Char.ofNat (65536 + (v - 55296) * 1024 + (w - 56320)) :: r.1,
                            r.2))
                    else none
                  | _, _, _, _ => none
                | _ => none
              else if 56320 ≤ v && v ≤ 57343 then none
              else
                (parseStringBody fuel cs3).map (fun r => (Char.ofNat v :: r.1, r.2))
            | _, _, _, _ => none
          | _ => none
        else
          match escDecode e with
          | some d => (parseStringBody fuel cs2).map (fun r => (d :: r.1, r.2))
          | none => none
    else if c.toNat < 32 then none
    else (parseStringBody fuel cs).map (fun r => (c :: r.1, r.2))

/-- Integer part of a JSON number: `0` or a nonzero digit followed by digits
(maximal match, as the decoder's regex takes it). -/
def parseIntPart : List Char → Option (Nat × List Char)
  | [] => none
  | c :: cs =>
    if c = '0' then some (0, cs)
    else if c.isDigit then
      some (digitsToNat (c :: cs.takeWhile Char.isDigit), cs.dropWhile Char.isDigit)
    else none

/-- Fraction part `.digits`, or nothing (the regex backs off when the dot is
not followed by a digit). -/
def parseFracPart (l : List Char) : List Char × List Char :=
  match l with
  | '.' :: r =>
    let ds := r.takeWhile Char.isDigit
    if ds.isEmpty then ([], l) else (ds, r.dropWhile Char.isDigit)
  | _ => ([], l)

/-- Exponent part `[eE][+-]?digits`, or nothing. Returns the signed exponent
and the remaining input. -/
def parseExpPart (l : List Char) : Option Int × List Char :=
  match l with
  | c :: r =>
    if c == 'e' || c == 'E' then
      match r with
      | '+' :: r2 =>
        let ds := r2.takeWhile Char.isDigit
        if ds.isEmpty then (none, l)
        else (some (Int.ofNat (digitsToNat ds)), r2.dropWhile Char.isDigit)
      | '-' :: r2 =>
        let ds := r2.takeWhile Char.isDigit
        if ds.isEmpty then (none, l)
        else (some (-Int.ofNat (digitsToNat ds)), r2.dropWhile Char.isDigit)
      | r2 =>
        let ds := r2.takeWhile Char.isDigit
        if ds.isEmpty then (none, l)
        else (some (Int.ofNat (digitsToNat ds)), r2.dropWhile Char.isDigit)
    else (none, l)
  | [] => (none, l)

/-- A JSON number: an `int` when it has neither fraction nor exponent, a
`float` otherwise (the decimal value held exactly as a rational; CPython
rounds it to the nearest IEEE double, a difference no claim depends on). -/
def parseNumber (l : List Char) : Option (JValue × List Char) :=
  let (neg, l1) := match l with
    | '-' :: r => (true, r)
    | _ => (false, l)
  match parseIntPart l1 with
  | none => none
  | some (ip, r1) =>
    let (fds, r2) := parseFracPart r1
    let (ex, r3) := parseExpPart r2
    match fds, ex with
    | [], none =>
      some (.int (if neg then -(ip : Int) else (ip : Int)), r3)
    | _, _ =>
      let m : Nat := ip * 10 ^ fds.length + digitsToNat fds
      let e : Int := ex.getD 0 - (fds.length : Int)
      let sm : Int := if neg then -(m : Int) else (m : Int)
      let q : Rat :=
        if 0 ≤ e then mkRat (sm * ((10 ^ e.toNat : Nat) : Int)) 1
        else mkRat sm (10 ^ (-e).toNat)
      some (.float q, r3)

/-- Python dict update `d[k] = v`: an existing key keeps its position and gets
the new value; a new key is appended. -/
def insertKey (acc : List (String × JValue)) (k : String) (v : JValue) :
    List (String × JValue) :=
  if acc.any (fun p => p.1 == k) then
    acc.map (fun p => if p.1 == k then (k, v) else p)
  else acc ++ [(k, v)]

/-- Build a dict from key/value pairs in document order, later duplicate keys
overwriting earlier values in place. -/
def objOfPairs (pairs : List (String × JValue)) : List (String × JValue) :=
  pairs.foldl (fun acc p => insertKey acc p.1 p.2) []

mutual

/-- One JSON value, in the strict grammar of `json.loads` (`NaN`/`Infinity`
constants are not modelled; no claim involves them). The input has leading
whitespace already skipped; returns the value and the remaining input. -/
def parseValue : Nat → List Char → Option (JValue × List Char)
  | 0, _ => none
  | fuel + 1, l =>
    match l with
    | '\x7b' :: r =>
      (match skipWs r with
      | '\x7d' :: r2 => some (.obj [], r2)
      | l1 =>
        match parseMembers fuel l1 with
        | some (pairs, r2) => some (.obj (objOfPairs pairs), r2)
        | none => none)
    | '[' :: r =>
      (match skipWs r with
      | ']' :: r2 => some (.arr [], r2)
      | l1 =>
        match parseElements fuel l1 with
        | some (vs, r2) => some (.arr vs, r2)
        | none => none)
    | '"' :: r =>
      (match parseStringBody (r.length + 1) r with
      | some (cs, rest) => some (.str (String.mk cs), rest)
      | none => none)
    | 't' :: 'r' :: 'u' :: 'e' :: r => some (.bool true, r)
    | 'f' :: 'a' :: 'l' :: 's' :: 'e' :: r => some (.bool false, r)
    | 'n' :: 'u' :: 'l' :: 'l' :: r => some (.null, r)
    | l => parseNumber l

/-- Nonempty member list of a JSON object, starting at a key; consumes the
closing brace. -/
def parseMembers : Nat → List Char → Option (List (String × JValue) × List Char)
  | 0, _ => none
  | fuel + 1, l =>
    match l with
    | '"' :: r =>
      (match parseStringBody (r.length + 1) r with
      | none => none
      | some (kcs, r2) =>
        match skipWs r2 with
        | ':' :: r3 =>
          (match parseValue fuel (skipWs r3) with
          | none => none
          | some (v, r4) =>
            match skipWs r4 with
            | ',' :: r5 =>
              (match parseMembers fuel (skipWs r5) with
              | some (ps, r6) => some ((String.mk kcs, v) :: ps, r6)
              | none => none)
            | '\x7d' :: r5 => some ([(String.mk kcs, v)], r5)
            | _ => none)
        | _ => none)
    | _ => none

/-- Nonempty element list of a JSON array; consumes the closing bracket. -/
def parseElements : Nat → List Char → Option (List JValue × List Char)
  | 0, _ => none
  | fuel + 1, l =>
    match parseValue fuel l with
    | none => none
    | some (v, r) =>
      match skipWs r with
      | ',' :: r2 =>
        (match parseElements fuel (skipWs r2) with
        | some (vs, r3) => some (v :: vs, r3)
        | none => none)
      | ']' :: r2 => some ([v], r2)
      | _ => none

end

/-- `json.loads`: parse one JSON document with surrounding whitespace; any
extra data is an error. `none` models a `JSONDecodeError`. The fuel bound is
generous: every other recursion layer consumes at least one character. -/
def loads (s : String) : Option JValue :=
  match parseValue (2 * s.data.length + 2) (skipWs s.data) with
  | some (v, rest) => if (skipWs rest).isEmpty then some v else none
  | none => none

example : loads "\x7b\"id\": \"1\"\x7d" = some (.obj [("id", .str "1")]) := rfl
example : loads " [1, -2, true, null] " =
    some (.arr [.int 1, .int (-2), .bool true, .null]) := rfl
example :
    (match loads "-2.5e1" with
      | some (.float q) => q.num == -25 && q.den == 1
      | _ => false) = true := rfl
example :
    (match loads "2.5" with
      | some (.float q) => q.num == 5 && q.den == 2
      | _ => false) = true := rfl
example : loads "\x7b\"a\": 1, \"a\": 2\x7d" = some (.obj [("a", .int 2)]) := rfl
example : loads "oops" = none := rfl
example : loads "   " = none := rfl
example : loads "\x7b\"a\": 1\x7d x" = none := rfl
example : loads "\x7b" = none := rfl
example : loads "01" = none := rfl
example : loads "\"a\\u00e9\"" = some (.str (String.mk ['a', Char.ofNat 233])) := rfl

/-- Split text into lines the way Python file iteration does (after
universal-newline translation): each line keeps its trailing newline, and a
final fragment without a newline is a line of its own. -/
def splitLinesAux : List Char → List Char → List (List Char)
  | [], acc => if acc.isEmpty then [] else [acc.reverse]
  | c :: cs, acc =>
    if c = '\n' then (acc.reverse ++ ['\n']) :: splitLinesAux cs []
    else splitLinesAux cs (c :: acc)

/-- The lines of the input file, with their newlines. -/
def linesKeepEnds (s : String) : List String :=
  (splitLinesAux s.data []).map String.mk

example : linesKeepEnds "a\nbc\nd" = ["a\n", "bc\n", "d"] := rfl
example : linesKeepEnds "" = [] := rfl

/-- The diagnostic printed by `process_file` when both parsing modes fail. -/
def errorLine (inputFile : String) : String :=
  "Error: Invalid JSON format in file " ++ inputFile

/-- The line loop of `process_file`: each line is tried as one JSON document
and written back converted, with a newline. On the first line that fails to
decode — wherever it is — the stream is rewound and the whole content is
tried as a single document: written without a trailing newline on success
(then the loop breaks), or reported via the diagnostic on failure (then the
function returns). Returns the output file content and the printed
diagnostic, if any. -/
def processLines (inputFile : String) :
    List String → String → String × Option String
  | [], _ => ("", none)
  | line :: rest, whole =>
    match loads line with
    | some d =>
      let out := processLines inputFile rest whole
      (dumps (convert d) ++ "\n" ++ out.1, out.2)
    | none =>
      match loads whole with
      | some d => (dumps (convert d), none)
      | none => ("", some (errorLine inputFile))

/-- CPython `posixpath.splitext`, split into reusable pieces: the extension
is everything from the last dot of the basename on, provided some character
of the basename other than a leading dot precedes it. -/
def splitextBase (base : List Char) : List Char × List Char :=
  match (base.dropWhile (fun c => c == '.')).reverse.dropWhile (fun c => c != '.') with
  | [] => (base, [])
  | _ :: stemRev =>
    (base.takeWhile (fun c => c == '.') ++ stemRev.reverse,
      '.' :: ((base.dropWhile (fun c => c == '.')).reverse.takeWhile
          (fun c => c != '.')).reverse)

/-- Split a path into directory part (with its slash) and basename. -/
def splitLastSlash (l : List Char) : List Char × List Char :=
  ((l.reverse.dropWhile (fun c => c != '/')).reverse,
    (l.reverse.takeWhile (fun c => c != '/')).reverse)

/-- `os.path.splitext` (POSIX rules). -/
def splitext (p : String) : String × String :=
  (String.mk ((splitLastSlash p.data).1 ++
      (splitextBase (splitLastSlash p.data).2).1),
    String.mk (splitextBase (splitLastSlash p.data).2).2)

/-- The default output path of `process_file`:
`base, ext = os.path.splitext(input_file); f"{base}-bigint{ext}"`. -/
def defaultOutputFile (input : String) : String :=
  (splitext input).1 ++ "-bigint" ++ (splitext input).2

example : defaultOutputFile "data.json" = "data-bigint.json" := rfl
example : defaultOutputFile "foo/bar.jsonl" = "foo/bar-bigint.jsonl" := rfl
example : defaultOutputFile "data" = "data-bigint" := rfl
example : defaultOutputFile ".bashrc" = ".bashrc-bigint" := rfl

/-- `process_file`, with the input file's (newline-translated) text supplied
as `content`: returns the output path actually used, the text written to it,
and the diagnostic printed, if any. I/O errors are out of scope; decode
errors never escape (every `json` call sits under a `try/except
json.JSONDecodeError`). -/
def processFile (inputFile : String) (outputFileOpt : Option String)
    (content : String) : String × String × Option String :=
  (match outputFileOpt with
    | some o => o
    | none => defaultOutputFile inputFile,
   processLines inputFile (linesKeepEnds content) content)

example :
    processFile "f.json" none "\x7b\"id\": \"1\", \"x\": \"a\"\x7d\n\x7b\"id\": \"2\"\x7d\n" =
      ("f-bigint.json", "\x7b\"id\": 1, \"x\": \"a\"\x7d\n\x7b\"id\": 2\x7d\n", none) := rfl

example :
    processFile "f.json" none "\x7b\n  \"id\": \"42\"\n\x7d" =
      ("f-bigint.json", "\x7b\"id\": 42\x7d", none) := rfl

example : dumps (.obj [("id", .int 7)]) = "\x7b\"id\": 7\x7d" := rfl
example : dumps (.obj [("a", .int 1), ("b", .arr [.int 2, .str "x"])]) =
    "\x7b\"a\": 1, \"b\": [2, \"x\"]\x7d" := rfl
example : dumps (.int (-35)) = "-35" := rfl
example : dumps (.str "a\nb") = "\"a\\nb\"" := rfl

/-- Output contributed by one line in confirmed JSONL mode. -/
def lineOutput (l : String) : String :=
  match loads l with
  | some d => dumps (convert d) ++ "\n"
  | none => ""

/-- Concatenated outputs of a run of lines. -/
def jsonlOutput : List String → String
  | [] => ""
  | l :: rest => lineOutput l ++ jsonlOutput rest

/-- The line loop's behavior around its first failing line, wherever that
line is: the lines before it are written converted, then the whole stream is
re-parsed as one document — appended without a newline on success, or
reported via the diagnostic on failure — and the remaining lines are never
touched. -/
theorem processLines_fallback (file : String) (pre : List String)
    (line : String) (rest : List String) (whole : String)
    (hpre : ∀ l ∈ pre, (loads l).isSome = true) (hline : loads line = none) :
    processLines file (pre ++ line :: rest) whole =
      match loads whole with
      | some d => (jsonlOutput pre ++ dumps (convert d), none)
      | none => (jsonlOutput pre, some (errorLine file)) := by
  induction pre with
  | nil =>
    simp only [List.nil_append, processLines, hline, jsonlOutput]
    cases hw : loads whole with
    | some d => simp [String.empty_append]
    | none => simp
  | cons p ps ih =>
    have hp : (loads p).isSome = true := hpre p (by simp)
    obtain ⟨d, hd⟩ := Option.isSome_iff_exists.mp hp
    simp only [List.cons_append, processLines, hd, List.append_eq]
    rw [ih (fun l hl => hpre l (by simp [hl]))]
    cases hw : loads whole with
    | some d2 => simp [jsonlOutput, lineOutput, hd, String.append_assoc]
    | none => simp [jsonlOutput, lineOutput, hd, String.append_assoc]

/-- C3, counterexample to the claim as stated: on the input
`{"a": 1}\n \n`, JSONL mode is confirmed by the first line, the second line
(whitespace only) fails to decode — and far from being a fatal unhandled
failure, this triggers the single-document fallback: the whole file parses as
one document, whose conversion is appended to the already-written first line,
and the run completes with no error at all. -/
theorem c3_counterexample :
    processFile "f.json" none "\x7b\"a\": 1\x7d\n \n" =
      ("f-bigint.json", "\x7b\"a\": 1\x7d\n\x7b\"a\": 1\x7d", none) := rfl

/-- C3 (amended): in confirmed JSONL mode, a decode failure on a later line
triggers the same rewind-and-parse-whole-stream fallback as a failure on the
first line: the lines before the failing one remain written, the entire
content is re-parsed as a single document (appended compactly on success,
reported via the printed diagnostic on failure), the remaining lines are
never processed, and no decode failure propagates out of the run. -/
theorem c3_later_line_failure_falls_back (file : String) (pre : List String)
    (line : String) (rest : List String) (whole : String)
    (hpre : ∀ l ∈ pre, (loads l).isSome = true) (hline : loads line = none) :
    processLines file (pre ++ line :: rest) whole =
      match loads whole with
      | some d => (jsonlOutput pre ++ dumps (convert d), none)
      | none => (jsonlOutput pre, some (errorLine file)) :=
  processLines_fallback file pre line rest whole hpre hline

/-- Witness for C3's amended theorem: first line decodes, second fails, the
whole stream fails as a single document, so the run ends with the first
line's output and the diagnostic — the third line is never processed. -/
theorem c3_witness :
    processLines "f.json" ["1\n", "oops\n", "2\n"] "1\noops\n2\n" =
      ("1\n", some (errorLine "f.json")) := by
  have h := c3_later_line_failure_falls_back "f.json" ["1\n"] "oops\n" ["2\n"]
    "1\noops\n2\n" (by decide) (by rfl)
  exact h.trans (by rfl)

/-- C6, counterexample to the claim as stated: converting the single-line
document `{"id": "7"}` writes the record `{"id": 7}` followed by a newline —
and that serialization contains a space between the `:` token and the `7`
token, inserted by `json.dumps`'s default separators. The output is therefore
not free of whitespace between tokens. -/
theorem c6_counterexample :
    processFile "f" none "\x7b\"id\": \"7\"\x7d" = ("f-bigint", "\x7b\"id\": 7\x7d\n", none) ∧
      "\x7b\"id\": 7\x7d".data.contains ' ' = true :=
  ⟨rfl, rfl⟩

/-- C7: when the first line fails to decode and the whole stream also fails
to decode as one JSON document, the run writes nothing, prints the diagnostic
naming the input file, and returns normally (no exception escapes: the model
is a total function whose error channel is exactly the printed message). -/
theorem c7_double_failure_diagnostic (file content l0 : String)
    (rest : List String) (hsplit : linesKeepEnds content = l0 :: rest)
    (h0 : loads l0 = none) (hw : loads content = none) :
    processFile file none content =
      (defaultOutputFile file, "", some (errorLine file)) := by
  unfold processFile
  rw [hsplit]
  simp only [processLines, h0, hw]

/-- Witness for C7: a pretty-printed opening brace alone fails both as a
first line and as a whole document. -/
theorem c7_witness :
    processFile "bad.json" none "\x7b\n" =
      ("bad-bigint.json", "", some (errorLine "bad.json")) :=
  (c7_double_failure_diagnostic "bad.json" "\x7b\n" "\x7b\n" [] rfl rfl rfl).trans rfl

theorem getD_mem_or_default {α : Type} (l : List α) (n : Nat) (d : α) :
    l.getD n d ∈ l ∨ l.getD n d = d := by
  induction l generalizing n with
  | nil => right; simp [List.getD]
  | cons a t ih =>
    cases n with
    | zero => left; simp [List.getD]
    | succ m =>
      rw [List.getD_cons_succ]
      rcases ih m with h | h
      · exact Or.inl (List.mem_cons_of_mem a h)
      · exact Or.inr h

theorem hexDigit_ne_newline (n : Nat) : hexDigit n ≠ '\n' := by
  intro hEq
  unfold hexDigit at hEq
  rcases getD_mem_or_default "0123456789abcdef".data n '0' with h | h
  · rw [hEq] at h
    exact absurd h (by decide)
  · rw [hEq] at h
    exact absurd h (by decide)

theorem decDigit_ne_newline (n : Nat) : decDigit n ≠ '\n' := by
  intro hEq
  unfold decDigit at hEq
  rcases getD_mem_or_default "0123456789".data n '0' with h | h
  · rw [hEq] at h
    exact absurd h (by decide)
  · rw [hEq] at h
    exact absurd h (by decide)

theorem natToDigitsAux_no_newline (fuel n : Nat) :
    '\n' ∉ natToDigitsAux fuel n := by
  induction fuel generalizing n with
  | zero => simp [natToDigitsAux]
  | succ f ih =>
    rw [natToDigitsAux]
    by_cases h : n < 10
    · rw [if_pos h]
      intro hm
      rw [List.mem_singleton] at hm
      exact decDigit_ne_newline n hm.symm
    · rw [if_neg h]
      intro hm
      rcases List.mem_append.mp hm with hm | hm
      · exact ih (n / 10) hm
      · rw [List.mem_singleton] at hm
        exact decDigit_ne_newline (n % 10) hm.symm

theorem natToDigits_no_newline (n : Nat) : '\n' ∉ natToDigits n :=
  natToDigitsAux_no_newline (n + 1) n

theorem intToDigits_no_newline (n : Int) : '\n' ∉ intToDigits n := by
  unfold intToDigits
  split_ifs
  · intro hm
    rcases List.mem_cons.mp hm with hm | hm
    · exact absurd hm (by decide)
    · exact natToDigits_no_newline _ hm
  · exact natToDigits_no_newline _

theorem fracDigits_no_newline (fuel num den : Nat) :
    '\n' ∉ fracDigits fuel num den := by
  induction fuel generalizing num with
  | zero => simp [fracDigits]
  | succ f ih =>
    rw [fracDigits]
    by_cases h : num = 0
    · rw [if_pos h]
      simp
    · rw [if_neg h]
      intro hm
      rcases List.mem_cons.mp hm with hm | hm
      · exact decDigit_ne_newline _ hm.symm
      · exact ih _ hm

theorem floatRepr_no_newline (q : Rat) : '\n' ∉ floatRepr q := by
  unfold floatRepr
  intro hm
  rcases List.mem_append.mp hm with hm | hm
  · rcases List.mem_append.mp hm with hm | hm
    · split_ifs at hm
      · exact absurd (List.mem_singleton.mp hm) (by decide)
      · exact absurd hm (List.not_mem_nil _)
    · exact natToDigits_no_newline _ hm
  · rcases List.mem_cons.mp hm with hm | hm
    · exact absurd hm (by decide)
    · split_ifs at hm
      · exact absurd (List.mem_singleton.mp hm) (by decide)
      · exact fracDigits_no_newline _ _ _ hm

theorem escChar_no_newline (c : Char) : '\n' ∉ escChar c := by
  unfold escChar
  by_cases h1 : c = '"'
  · rw [if_pos h1]; decide
  rw [if_neg h1]
  by_cases h2 : c = '\\'
  · rw [if_pos h2]; decide
  rw [if_neg h2]
  by_cases h3 : c = '\n'
  · rw [if_pos h3]; decide
  rw [if_neg h3]
  by_cases h4 : c = '\t'
  · rw [if_pos h4]; decide
  rw [if_neg h4]
  by_cases h5 : c = '\r'
  · rw [if_pos h5]; decide
  rw [if_neg h5]
  by_cases h6 : c = Char.ofNat 8
  · rw [if_pos h6]; decide
  rw [if_neg h6]
  by_cases h7 : c = Char.ofNat 12
  · rw [if_pos h7]; decide
  rw [if_neg h7]
  by_cases h8 : c.toNat < 32
  · rw [if_pos h8]
    intro hm
    simp only [List.mem_cons, List.not_mem_nil, or_false] at hm
    rcases hm with hm | hm | hm | hm | hm | hm <;>
      first
      | exact absurd hm (by decide)
      | exact hexDigit_ne_newline _ hm.symm
  rw [if_neg h8]
  by_cases h9 : c.toNat < 127
  · rw [if_pos h9]
    intro hm
    rw [List.mem_singleton] at hm
    exact h3 hm.symm
  rw [if_neg h9]
  by_cases h10 : c.toNat < 65536
  · rw [if_pos h10]
    intro hm
    simp only [List.mem_cons, List.not_mem_nil, or_false] at hm
    rcases hm with hm | hm | hm | hm | hm | hm <;>
      first
      | exact absurd hm (by decide)
      | exact hexDigit_ne_newline _ hm.symm
  · rw [if_neg h10]
    intro hm
    simp only [List.mem_cons, List.not_mem_nil, or_false] at hm
    rcases hm with hm | hm | hm | hm | hm | hm | hm | hm | hm | hm | hm | hm <;>
      first
      | exact absurd hm (by decide)
      | exact hexDigit_ne_newline _ hm.symm

theorem strLit_no_newline (s : String) : '\n' ∉ (strLit s).data := by
  intro hm
  have hm2 : '\n' ∈ '"' :: ((s.data.map escChar).flatten ++ ['"']) := hm
  rcases List.mem_cons.mp hm2 with hm3 | hm3
  · exact absurd hm3 (by decide)
  rcases List.mem_append.mp hm3 with hm4 | hm4
  · obtain ⟨l, hl, hcl⟩ := List.mem_flatten.mp hm4
    obtain ⟨c, _, rfl⟩ := List.mem_map.mp hl
    exact escChar_no_newline c hcl
  · exact absurd hm4 (by decide)

theorem dumpsList_no_newline {xs : List JValue}
    (ih : ∀ x ∈ xs, '\n' ∉ (dumps x).data) : '\n' ∉ (dumpsList xs).data := by
  induction xs with
  | nil => simp [dumpsList]
  | cons x rest ihl =>
    cases rest with
    | nil => exact ih x (by simp)
    | cons y t =>
      intro hm
      have hm2 : '\n' ∈ (dumps x ++ ", " ++ dumpsList (y :: t)).data := hm
      rw [String.data_append, String.data_append] at hm2
      rcases List.mem_append.mp hm2 with hm3 | hm3
      · rcases List.mem_append.mp hm3 with hm4 | hm4
        · exact ih x (by simp) hm4
        · exact absurd hm4 (by decide)
      · exact ihl (fun z hz => ih z (by simp [hz])) hm3

theorem dumpsEntries_no_newline {es : List (String × JValue)}
    (ih : ∀ kv ∈ es, '\n' ∉ (dumps kv.2).data) :
    '\n' ∉ (dumpsEntries es).data := by
  induction es with
  | nil => simp [dumpsEntries]
  | cons kv rest ihl =>
    obtain ⟨k, v⟩ := kv
    cases rest with
    | nil =>
      intro hm
      have hm2 : '\n' ∈ (strLit k ++ ": " ++ dumps v).data := hm
      rw [String.data_append, String.data_append] at hm2
      rcases List.mem_append.mp hm2 with hm3 | hm3
      · rcases List.mem_append.mp hm3 with hm4 | hm4
        · exact strLit_no_newline k hm4
        · exact absurd hm4 (by decide)
      · exact ih (k, v) (by simp) hm3
    | cons p t =>
      intro hm
      have hm2 :
          '\n' ∈ (strLit k ++ ": " ++ dumps v ++ ", " ++ dumpsEntries (p :: t)).data :=
        hm
      rw [String.data_append, String.data_append, String.data_append,
        String.data_append] at hm2
      rcases List.mem_append.mp hm2 with hm3 | hm3
      · rcases List.mem_append.mp hm3 with hm4 | hm4
        · rcases List.mem_append.mp hm4 with hm5 | hm5
          · rcases List.mem_append.mp hm5 with hm6 | hm6
            · exact strLit_no_newline k hm6
            · exact absurd hm6 (by decide)
          · exact ih (k, v) (by simp) hm5
        · exact absurd hm4 (by decide)
      · exact ihl (fun z hz => ih z (by simp [hz])) hm3

/-- No serialization produced by `dumps` contains a newline character: every
character of a string value is escaped into printable ASCII, and all other
tokens are newline-free. -/
theorem dumps_no_newline (v : JValue) : '\n' ∉ (dumps v).data := by
  induction v using JValue.inductionOn with
  | hnull => decide
  | hbool b => cases b <;> decide
  | hint n => exact intToDigits_no_newline n
  | hfloat q => exact floatRepr_no_newline q
  | hstr s => exact strLit_no_newline s
  | harr xs ih =>
    intro hm
    have hm2 : '\n' ∈ ("[" ++ dumpsList xs ++ "]").data := hm
    rw [String.data_append, String.data_append] at hm2
    rcases List.mem_append.mp hm2 with hm3 | hm3
    · rcases List.mem_append.mp hm3 with hm4 | hm4
      · exact absurd hm4 (by decide)
      · exact dumpsList_no_newline ih hm4
    · exact absurd hm3 (by decide)
  | hobj es ih =>
    intro hm
    have hm2 : '\n' ∈ ("\x7b" ++ dumpsEntries es ++ "\x7d").data := hm
    rw [String.data_append, String.data_append] at hm2
    rcases List.mem_append.mp hm2 with hm3 | hm3
    · rcases List.mem_append.mp hm3 with hm4 | hm4
      · exact absurd hm4 (by decide)
      · exact dumpsEntries_no_newline ih hm4
    · exact absurd hm3 (by decide)

/-- C6 (amended): every record written by the run is serialized by
`json.dumps` with its default separators: the serialization occupies a single
line — it contains no newline character, so each JSONL record stays on its
own output line — but a single space is inserted after each `:` and `,`
token, so the output is not free of whitespace between tokens. -/
theorem c6_records_single_line (v : JValue) : '\n' ∉ (dumps v).data :=
  dumps_no_newline v

theorem takeWhile_append_all {α : Type} {p : α → Bool} {l₁ : List α}
    (l₂ : List α) (h : ∀ a ∈ l₁, p a = true) :
    (l₁ ++ l₂).takeWhile p = l₁ ++ l₂.takeWhile p := by
  induction l₁ with
  | nil => simp
  | cons a t ih =>
    have ha : p a = true := h a (by simp)
    simp only [List.cons_append, List.takeWhile_cons, ha, if_true]
    rw [ih (fun x hx => h x (by simp [hx]))]

theorem dropWhile_append_all {α : Type} {p : α → Bool} {l₁ : List α}
    (l₂ : List α) (h : ∀ a ∈ l₁, p a = true) :
    (l₁ ++ l₂).dropWhile p = l₂.dropWhile p := by
  induction l₁ with
  | nil => simp
  | cons a t ih =>
    have ha : p a = true := h a (by simp)
    simp only [List.cons_append, List.dropWhile_cons, ha, if_true]
    exact ih (fun x hx => h x (by simp [hx]))

theorem takeWhile_append_of_not {α : Type} {p : α → Bool} {l₁ : List α}
    (l₂ : List α) (h : ∃ a ∈ l₁, p a = false) :
    (l₁ ++ l₂).takeWhile p = l₁.takeWhile p := by
  induction l₁ with
  | nil =>
    obtain ⟨a, ha, _⟩ := h
    exact absurd ha (List.not_mem_nil a)
  | cons a t ih =>
    by_cases hp : p a = true
    · simp only [List.cons_append, List.takeWhile_cons, hp, if_true]
      have h2 : ∃ x ∈ t, p x = false := by
        obtain ⟨x, hx, hpx⟩ := h
        rcases List.mem_cons.mp hx with rfl | hx2
        · rw [hp] at hpx
          exact absurd hpx (by simp)
        · exact ⟨x, hx2, hpx⟩
      rw [ih h2]
    · have hp2 : p a = false := by simpa using hp
      simp [List.takeWhile_cons, hp2]

theorem dropWhile_append_of_not {α : Type} {p : α → Bool} {l₁ : List α}
    (l₂ : List α) (h : ∃ a ∈ l₁, p a = false) :
    (l₁ ++ l₂).dropWhile p = l₁.dropWhile p ++ l₂ := by
  induction l₁ with
  | nil =>
    obtain ⟨a, ha, _⟩ := h
    exact absurd ha (List.not_mem_nil a)
  | cons a t ih =>
    by_cases hp : p a = true
    · simp only [List.cons_append, List.dropWhile_cons, hp, if_true]
      have h2 : ∃ x ∈ t, p x = false := by
        obtain ⟨x, hx, hpx⟩ := h
        rcases List.mem_cons.mp hx with rfl | hx2
        · rw [hp] at hpx
          exact absurd hpx (by simp)
        · exact ⟨x, hx2, hpx⟩
      exact ih h2
    · have hp2 : p a = false := by simpa using hp
      simp [List.dropWhile_cons, hp2]

theorem dropWhile_eq_nil_of_all {α : Type} {p : α → Bool} {l : List α}
    (h : ∀ a ∈ l, p a = true) : l.dropWhile p = [] := by
  induction l with
  | nil => rfl
  | cons a t ih =>
    simp only [List.dropWhile_cons, h a (by simp), if_true]
    exact ih (fun x hx => h x (by simp [hx]))

/-- The extension shape of the spec's first case: a dot followed by one or
more characters containing no further dot and no slash. -/
def extWellFormed (ext : String) : Bool :=
  match ext.data with
  | c :: t => c == '.' && !t.isEmpty && t.all (fun c2 => !(c2 == '.') && !(c2 == '/'))
  | [] => false

/-- The basename of the path contains a character other than a dot (so
`splitext` really does split — a name of only leading dots, like `.bashrc`,
has no extension by POSIX convention). -/
def stemHasRealName (stem : String) : Bool :=
  (stem.data.reverse.takeWhile (fun c => c != '/')).any (fun c => !(c == '.'))

/-- The spec's second case: the basename contains no dot at all, so the path
has no extension. -/
def noExtension (p : String) : Bool :=
  (p.data.reverse.takeWhile (fun c => c != '/')).all (fun c => !(c == '.'))

theorem splitLastSlash_append {S E : List Char}
    (hE : ∀ a ∈ E, (a != '/') = true) :
    splitLastSlash (S ++ E) =
      ((S.reverse.dropWhile (fun c => c != '/')).reverse,
        (S.reverse.takeWhile (fun c => c != '/')).reverse ++ E) := by
  unfold splitLastSlash
  rw [List.reverse_append,
    takeWhile_append_all _ (fun a ha => hE a (List.mem_reverse.mp ha)),
    dropWhile_append_all _ (fun a ha => hE a (List.mem_reverse.mp ha)),
    List.reverse_append, List.reverse_reverse]

theorem splitextBase_with_ext {bs t : List Char}
    (hbs : ∃ a ∈ bs, (a == '.') = false)
    (ht : ∀ a ∈ t, (a != '.') = true) :
    splitextBase (bs ++ '.' :: t) = (bs, '.' :: t) := by
  unfold splitextBase
  rw [takeWhile_append_of_not _ hbs, dropWhile_append_of_not _ hbs,
    List.reverse_append, List.reverse_cons, List.append_assoc,
    dropWhile_append_all _ (fun a ha => ht a (List.mem_reverse.mp ha)),
    takeWhile_append_all _ (fun a ha => ht a (List.mem_reverse.mp ha))]
  simp only [List.singleton_append, List.dropWhile_cons, List.takeWhile_cons,
    bne_self_eq_false, Bool.false_eq_true, if_false, List.append_nil,
    List.reverse_reverse]
  rw [List.takeWhile_append_dropWhile]

theorem splitext_stem_ext (stem ext : String)
    (hext : extWellFormed ext = true) (hstem : stemHasRealName stem = true) :
    splitext (stem ++ ext) = (stem, ext) := by
  obtain ⟨c0, t, hE⟩ : ∃ c0 t, ext.data = c0 :: t := by
    cases hEd : ext.data with
    | nil =>
      unfold extWellFormed at hext
      rw [hEd] at hext
      exact absurd hext (by decide)
    | cons c0 t => exact ⟨c0, t, rfl⟩
  unfold extWellFormed at hext
  rw [hE] at hext
  simp only [Bool.and_eq_true, beq_iff_eq] at hext
  obtain ⟨⟨hc0, _⟩, htall⟩ := hext
  subst hc0
  have htdot : ∀ a ∈ t, (a != '.') = true := by
    intro a ha
    have h2 := List.all_eq_true.mp htall a ha
    simp only [Bool.and_eq_true] at h2
    simpa [bne] using h2.1
  have htslash : ∀ a ∈ t, (a != '/') = true := by
    intro a ha
    have h2 := List.all_eq_true.mp htall a ha
    simp only [Bool.and_eq_true] at h2
    simpa [bne] using h2.2
  have hbs :
      ∃ a ∈ (stem.data.reverse.takeWhile (fun c => c != '/')).reverse,
        (a == '.') = false := by
    unfold stemHasRealName at hstem
    obtain ⟨a, ha, hpa⟩ := List.any_eq_true.mp hstem
    exact ⟨a, List.mem_reverse.mpr ha, by simpa using hpa⟩
  have hEslash : ∀ a ∈ ('.' : Char) :: t, (a != '/') = true := by
    intro a ha
    rcases List.mem_cons.mp ha with rfl | ha2
    · decide
    · exact htslash a ha2
  unfold splitext
  rw [String.data_append, hE, splitLastSlash_append hEslash,
    splitextBase_with_ext hbs htdot]
  have hrecomb :
      (stem.data.reverse.dropWhile (fun c => c != '/')).reverse ++
        (stem.data.reverse.takeWhile (fun c => c != '/')).reverse = stem.data := by
    rw [← List.reverse_append, List.takeWhile_append_dropWhile,
      List.reverse_reverse]
  rw [hrecomb, ← hE]

theorem splitext_no_ext (p : String) (h : noExtension p = true) :
    splitext p = (p, "") := by
  unfold noExtension at h
  have hall :
      ∀ a ∈ (p.data.reverse.takeWhile (fun c => c != '/')).reverse,
        (a == '.') = false := by
    intro a ha
    have h2 := List.all_eq_true.mp h a (List.mem_reverse.mp ha)
    simpa using h2
  have hsb :
      splitextBase ((p.data.reverse.takeWhile (fun c => c != '/')).reverse) =
        ((p.data.reverse.takeWhile (fun c => c != '/')).reverse, []) := by
    cases hb : (p.data.reverse.takeWhile (fun c => c != '/')).reverse with
    | nil => rfl
    | cons b bt =>
      have hball : ∀ a ∈ b :: bt, (a == '.') = false := hb ▸ hall
      unfold splitextBase
      have h1 : (b :: bt).takeWhile (fun c => c == '.') = [] := by
        simp [List.takeWhile_cons, hball b (by simp)]
      have h2 : (b :: bt).dropWhile (fun c => c == '.') = b :: bt := by
        simp [List.dropWhile_cons, hball b (by simp)]
      have h3 : (b :: bt).reverse.dropWhile (fun c => c != '.') = [] := by
        apply dropWhile_eq_nil_of_all
        intro a ha
        simpa [bne] using hball a (List.mem_reverse.mp ha)
      rw [h2, h3]
  have hsplit :
      splitLastSlash p.data =
        ((p.data.reverse.dropWhile (fun c => c != '/')).reverse,
          (p.data.reverse.takeWhile (fun c => c != '/')).reverse) := rfl
  unfold splitext
  rw [hsplit]
  simp only [hsb]
  have hrecomb :
      (p.data.reverse.dropWhile (fun c => c != '/')).reverse ++
        (p.data.reverse.takeWhile (fun c => c != '/')).reverse = p.data := by
    rw [← List.reverse_append, List.takeWhile_append_dropWhile,
      List.reverse_reverse]
  rw [hrecomb]

/-- C8: with no explicit output path, the output path is derived by inserting
`-bigint` between the stem and the extension of the input path (an extension
being a final dot-segment of the basename preceded by a real name), and for a
path whose basename contains no dot the suffix is appended to the bare
name. -/
theorem c8_output_path_derivation :
    (∀ stem ext : String, extWellFormed ext = true →
        stemHasRealName stem = true →
        defaultOutputFile (stem ++ ext) = stem ++ "-bigint" ++ ext) ∧
      ∀ p : String, noExtension p = true →
        defaultOutputFile p = p ++ "-bigint" := by
  constructor
  · intro stem ext hext hstem
    unfold defaultOutputFile
    rw [splitext_stem_ext stem ext hext hstem]
  · intro p h
    unfold defaultOutputFile
    rw [splitext_no_ext p h]
    exact String.append_empty _

/-- Witness for C8 at the spec's examples: `data.json` gains the suffix
before its extension, and a bare `data` gains it at the end. -/
theorem c8_witness :
    defaultOutputFile "data.json" = "data-bigint.json" ∧
      defaultOutputFile "data" = "data-bigint" :=
  ⟨c8_output_path_derivation.1 "data" ".json" (by decide) (by decide),
    c8_output_path_derivation.2 "data" (by decide)⟩
